import Mathlib

/-!
Formal model of the page-geometry normalization pipeline of the
intelligent-document-entities-extraction repository.

The Python source under `src/processor/page_processor/` and
`src/processor/document_preprocessor*` is shallowly embedded here:

* pure numeric code becomes functions over `ℚ` (Python floats are modelled
  as exact rationals; a float value that may be non-finite is modelled as
  `Option ℚ`, with `none` standing for `nan`/`inf`);
* calls into external libraries (OpenCV, PyMuPDF, pytesseract) are modelled
  by passing their observable outputs as explicit arguments, so every
  definition is a total function of the page data plus the library outputs;
* Python code that catches exceptions of a collaborator is modelled by an
  explicit outcome type (e.g. `EncodeOutcome`) with one constructor per
  control path of the `try`/`except` in the source.
-/

namespace PagePipeline

/-! ### `SkewDetector._normalise_angle` (skew_detector.py, lines 242-248)

The source is a single static method with two sequential `while` loops:

    while angle <= -90.0: angle += 180.0
    while angle > 90.0:   angle -= 180.0
    return angle

Each loop becomes one recursive helper; `normalise_angle` runs them in the
source's order. -/

/-- First loop of `_normalise_angle`: `while angle <= -90.0: angle += 180.0`. -/
def normAdd (angle : ℚ) : ℚ :=
  if h : angle ≤ -90 then normAdd (angle + 180) else angle
termination_by (⌈(90 - angle) / 180⌉).toNat
decreasing_by
  have h180 : (0:ℚ) < 180 := by norm_num
  have h1 : (1:ℚ) ≤ (90 - angle) / 180 := by
    rw [le_div_iff₀ h180]; linarith
  have hc : (1:ℤ) ≤ ⌈(90 - angle) / 180⌉ := by
    exact_mod_cast h1.trans (Int.le_ceil ((90 - angle) / 180))
  have heq : (90 - (angle + 180)) / 180 = (90 - angle) / 180 - 1 := by ring
  rw [heq, Int.ceil_sub_one]
  omega

/-- Second loop of `_normalise_angle`: `while angle > 90.0: angle -= 180.0`. -/
def normSub (angle : ℚ) : ℚ :=
  if h : 90 < angle then normSub (angle - 180) else angle
termination_by (⌈(angle + 90) / 180⌉).toNat
decreasing_by
  have h180 : (0:ℚ) < 180 := by norm_num
  have h1 : (1:ℚ) ≤ (angle + 90) / 180 := by
    rw [le_div_iff₀ h180]; linarith
  have hc : (1:ℤ) ≤ ⌈(angle + 90) / 180⌉ := by
    exact_mod_cast h1.trans (Int.le_ceil ((angle + 90) / 180))
  have heq : (angle - 180 + 90) / 180 = (angle + 90) / 180 - 1 := by ring
  rw [heq, Int.ceil_sub_one]
  omega

/-- `SkewDetector._normalise_angle`: both loops in source order. -/
def normalise_angle (angle : ℚ) : ℚ :=
  normSub (normAdd angle)

lemma normAdd_gt (angle : ℚ) : -90 < normAdd angle := by
  induction angle using normAdd.induct with
  | case1 a h ih => rw [normAdd, dif_pos h]; exact ih
  | case2 a h => rw [normAdd, dif_neg h]; linarith [not_le.mp h]

lemma normAdd_shift (angle : ℚ) : ∃ k : ℤ, normAdd angle = angle + 180 * k := by
  induction angle using normAdd.induct with
  | case1 a h ih =>
    obtain ⟨k, hk⟩ := ih
    exact ⟨k + 1, by rw [normAdd, dif_pos h, hk]; push_cast; ring⟩
  | case2 a h => exact ⟨0, by rw [normAdd, dif_neg h]; push_cast; ring⟩

lemma normSub_le (angle : ℚ) : normSub angle ≤ 90 := by
  induction angle using normSub.induct with
  | case1 a h ih => rw [normSub, dif_pos h]; exact ih
  | case2 a h => rw [normSub, dif_neg h]; exact not_lt.mp h

lemma normSub_gt (angle : ℚ) (hgt : -90 < angle) : -90 < normSub angle := by
  induction angle using normSub.induct with
  | case1 a h ih => rw [normSub, dif_pos h]; exact ih (by linarith)
  | case2 a h => rw [normSub, dif_neg h]; exact hgt

lemma normSub_shift (angle : ℚ) : ∃ k : ℤ, normSub angle = angle + 180 * k := by
  induction angle using normSub.induct with
  | case1 a h ih =>
    obtain ⟨k, hk⟩ := ih
    exact ⟨k - 1, by rw [normSub, dif_pos h, hk]; push_cast; ring⟩
  | case2 a h => exact ⟨0, by rw [normSub, dif_neg h]; push_cast; ring⟩

/-- C2: for every (finite) rational input angle, `_normalise_angle` returns a
value in the half-open interval `(-90, 90]`, and that value differs from the
input by an integer multiple of 180 degrees (it is obtained by repeatedly
adding or subtracting 180). -/
theorem normalise_angle_range (angle : ℚ) :
    -90 < normalise_angle angle ∧ normalise_angle angle ≤ 90 ∧
      ∃ k : ℤ, normalise_angle angle = angle + 180 * k := by
  refine ⟨normSub_gt _ (normAdd_gt angle), normSub_le _, ?_⟩
  obtain ⟨k₁, hk₁⟩ := normAdd_shift angle
  obtain ⟨k₂, hk₂⟩ := normSub_shift (normAdd angle)
  exact ⟨k₁ + k₂, by rw [normalise_angle, hk₂, hk₁]; push_cast; ring⟩

/-! ### `SkewDetector.deskew_page` (skew_detector.py, lines 55-80)

`deskew_page` renders the page, estimates the skew angle, and (when large
enough) rotates and PNG-encodes the raster.  The rendering/estimation/encoding
library calls are modelled as explicit inputs:

* `estimated` is the value `_estimate_angle(raster)` computed on line 59;
* `rot_w`/`rot_h` are `rotated.shape[1]*scale_x` / `rotated.shape[0]*scale_y`;
* `enc` is the observable outcome of `cv2.imencode` inside the `try` block:
  `ok buffer` (returns `(True, buffer)`), `error` (raises `cv2.error`,
  caught on line 71), or `failed` (returns `success == False`, line 75). -/

/-- Outcome of the `cv2.imencode` call in `deskew_page`. -/
inductive EncodeOutcome where
  | ok (buffer : List Nat)
  | error
  | failed
deriving DecidableEq

/-- The frozen dataclass `SkewDetectionResult` (skew_detector.py, lines 11-16). -/
structure SkewDetectionResult where
  angle : ℚ
  image_bytes : Option (List Nat)
  width_pts : ℚ
  height_pts : ℚ
deriving DecidableEq

/-- `SkewDetector.deskew_page`.  `min_correction` is the detector's threshold,
`page_w`/`page_h` are `page.rect.width`/`page.rect.height`. -/
def deskew_page (min_correction page_w page_h estimated rot_w rot_h : ℚ)
    (enc : EncodeOutcome) : SkewDetectionResult :=
  if |estimated| < min_correction then
    ⟨0, none, page_w, page_h⟩
  else
    match enc with
    | .error => ⟨0, none, page_w, page_h⟩
    | .failed => ⟨0, none, page_w, page_h⟩
    | .ok buffer => ⟨estimated, some buffer, rot_w, rot_h⟩

/-- C1: for every page (i.e. every estimated angle, page geometry and encoder
outcome) and every positive `min_correction` threshold, the result of
`deskew_page` has `image_bytes = none` exactly when the absolute value of the
result's `angle` is below `min_correction`; in particular a result carrying
image bytes always has `|angle| ≥ min_correction`.  (The repository always
constructs `SkewDetector()` with the default `min_correction = 0.3 > 0`.) -/
theorem deskew_page_image_iff (min_correction page_w page_h estimated rot_w rot_h : ℚ)
    (enc : EncodeOutcome) (hmc : 0 < min_correction) :
    ((deskew_page min_correction page_w page_h estimated rot_w rot_h enc).image_bytes = none ↔
      |(deskew_page min_correction page_w page_h estimated rot_w rot_h enc).angle| <
        min_correction) ∧
    (∀ b, (deskew_page min_correction page_w page_h estimated rot_w rot_h enc).image_bytes =
        some b →
      min_correction ≤
        |(deskew_page min_correction page_w page_h estimated rot_w rot_h enc).angle|) := by
  unfold deskew_page
  by_cases h : |estimated| < min_correction
  · simp [h, hmc, abs_of_nonneg]
  · cases enc <;> simp [h, hmc, abs_of_nonneg] <;> exact not_lt.mp h

/-- Witness for C1 at a concrete page: a Letter page whose estimated skew is
1 degree, threshold 0.3, with a successful encode. -/
theorem deskew_page_image_iff_witness :
    (0:ℚ) < 3/10 ∧
    (((deskew_page (3/10) 612 792 1 620 800 (.ok [0])).image_bytes = none ↔
      |(deskew_page (3/10) 612 792 1 620 800 (.ok [0])).angle| < 3/10) ∧
    (∀ b, (deskew_page (3/10) 612 792 1 620 800 (.ok [0])).image_bytes = some b →
      (3/10:ℚ) ≤ |(deskew_page (3/10) 612 792 1 620 800 (.ok [0])).angle|)) :=
  ⟨by norm_num, deskew_page_image_iff (3/10) 612 792 1 620 800 (.ok [0]) (by norm_num)⟩

/-- C6: if PNG-encoding the rotated raster fails — whether `cv2.imencode`
raises `cv2.error` or reports `success == False` — `deskew_page` returns the
no-correction result (angle `0.0`, no image bytes, the original page
dimensions in points).  The embedding is a total function: the failure is
absorbed, never propagated. -/
theorem deskew_page_encode_failure (min_correction page_w page_h estimated rot_w rot_h : ℚ) :
    deskew_page min_correction page_w page_h estimated rot_w rot_h .error =
      ⟨0, none, page_w, page_h⟩ ∧
    deskew_page min_correction page_w page_h estimated rot_w rot_h .failed =
      ⟨0, none, page_w, page_h⟩ := by
  unfold deskew_page
  by_cases h : |estimated| < min_correction <;> simp [h]

/-- C10: whenever `deskew_page` returns a result with `image_bytes = none`
(sub-threshold angle or failed encode), the reported `angle` is exactly `0.0`:
the caller never observes the internally measured estimate on those paths. -/
theorem deskew_page_none_angle_zero (min_correction page_w page_h estimated rot_w rot_h : ℚ)
    (enc : EncodeOutcome)
    (hnone : (deskew_page min_correction page_w page_h estimated rot_w rot_h enc).image_bytes =
      none) :
    (deskew_page min_correction page_w page_h estimated rot_w rot_h enc).angle = 0 := by
  unfold deskew_page at *
  by_cases h : |estimated| < min_correction
  · simp [h]
  · cases enc <;> simp [h] at hnone ⊢

/-- Witness for C10: a page with sub-threshold estimated skew (0.1 degrees at
threshold 0.3) yields `image_bytes = none`, and the theorem gives angle 0. -/
theorem deskew_page_none_angle_zero_witness :
    (deskew_page (3/10) 612 792 (1/10) 620 800 (.ok [0])).image_bytes = none ∧
    (deskew_page (3/10) 612 792 (1/10) 620 800 (.ok [0])).angle = 0 :=
  have hn : (deskew_page (3/10) 612 792 (1/10) 620 800 (.ok [0])).image_bytes = none := by
    unfold deskew_page
    norm_num [abs_of_nonneg]
  ⟨hn, deskew_page_none_angle_zero (3/10) 612 792 (1/10) 620 800 (.ok [0]) hn⟩

/-! ### `PageRotator` (page_rotator.py)

`_get_text_orientation` (lines 25-49) wraps the pytesseract OSD call in
`try`/`except Exception`, yielding `0` on any detector failure.  The detector
call is modelled as `Option Nat`: `some o` when `image_to_osd` returns
orientation `o`, `none` when it raises.

`upside_down_rotator` (lines 84-100) reads `page.rotation`, and only when the
detected text orientation equals 180 sets the rotation to
`(current + 180) % 360`; it returns the applied orientation indicator. -/

/-- `PageRotator._get_text_orientation`: detector result, with `none`
modelling a raised exception (caught on line 46, yielding orientation 0). -/
def get_text_orientation (detected : Option Nat) : Nat :=
  match detected with
  | none => 0
  | some o => o

/-- `PageRotator.upside_down_rotator`, reduced to its page-rotation state:
given the page's current cumulative `rotation` and the detected
`text_orientation`, returns the new rotation together with the applied
orientation (the source returns `UPSIDE_DOWN_ANGLE if ... else 0`). -/
def upside_down_rotator (rotation text_orientation : Nat) : Nat × Nat :=
  if text_orientation = 180 then ((rotation + 180) % 360, 180)
  else (rotation, 0)

/-- C4: for a valid PyMuPDF rotation value (`rotation < 360`), the cumulative
rotation changes exactly when the detected orientation is 180, in which case
the new rotation is `(rotation + 180) % 360`; detections of 90 or 270 leave
the rotation unchanged (and report no applied correction). -/
theorem upside_down_rotator_spec (rotation text_orientation : Nat)
    (h : rotation < 360) :
    ((upside_down_rotator rotation text_orientation).1 ≠ rotation ↔
      text_orientation = 180) ∧
    (text_orientation = 180 →
      (upside_down_rotator rotation text_orientation).1 = (rotation + 180) % 360) ∧
    (text_orientation = 90 ∨ text_orientation = 270 →
      upside_down_rotator rotation text_orientation = (rotation, 0)) := by
  unfold upside_down_rotator
  by_cases ht : text_orientation = 180 <;> simp [ht] <;> omega

/-- Witness for C4: a page already rotated 90 degrees whose preview triggers a
180-degree detection ends at rotation 270. -/
theorem upside_down_rotator_spec_witness :
    (90:Nat) < 360 ∧
    (((upside_down_rotator 90 180).1 ≠ 90 ↔ (180:Nat) = 180) ∧
    ((180:Nat) = 180 → (upside_down_rotator 90 180).1 = (90 + 180) % 360) ∧
    ((180:Nat) = 90 ∨ (180:Nat) = 270 → upside_down_rotator 90 180 = (90, 0))) :=
  ⟨by decide, upside_down_rotator_spec 90 180 (by decide)⟩

/-- C5: when the external text-orientation detector raises (modelled by
`none`), the orientation is treated as 0 and the page rotation is left
unchanged with no correction applied; the step is a total function, so the
failure never propagates. -/
theorem orientation_failure_no_correction (rotation : Nat) :
    get_text_orientation none = 0 ∧
    upside_down_rotator rotation (get_text_orientation none) = (rotation, 0) := by
  constructor
  · rfl
  · simp [get_text_orientation, upside_down_rotator]

/-! ### `SkewDetector._robust_weighted_angle` (skew_detector.py, lines 202-215)

The source sorts the `(angle, weight)` pairs by angle (`np.argsort`), forms
the cumulative weight array (`np.cumsum`), and picks the first sorted angle at
which the cumulative weight reaches `cumulative[-1] * 0.5`
(`np.searchsorted(cumulative, cutoff)`, which with the default `side="left"`
returns the first index whose entry is `≥ cutoff`).  `np.argsort` is modelled
by `List.insertionSort` on the order-by-angle relation: the unstable sort used
by numpy may permute equal angles differently, but any sort-by-angle
permutation yields the same selected angle value, which is what the theorems
below are about. -/

/-- Order of weighted angles by their angle component (`np.argsort(angles)`). -/
def pairLE (p q : ℚ × ℚ) : Prop := p.1 ≤ q.1

instance : DecidableRel pairLE := fun p q => inferInstanceAs (Decidable (p.1 ≤ q.1))

instance : IsTotal (ℚ × ℚ) pairLE := ⟨fun p q => le_total p.1 q.1⟩

instance : IsTrans (ℚ × ℚ) pairLE := ⟨fun _ _ _ h1 h2 => le_trans h1 h2⟩

/-- `np.cumsum`: partial sums of a list. -/
def cumsum : List ℚ → List ℚ
  | [] => []
  | x :: xs => x :: (cumsum xs).map (x + ·)

/-- The body of `_robust_weighted_angle` after the sort: cumulative weights,
`cutoff = cumulative[-1] * 0.5`, `median_idx = np.searchsorted(cumulative,
cutoff)` (first index with entry `≥ cutoff`, i.e. `List.findIdx`), and the
final `angles[min(median_idx, len(angles) - 1)]`. -/
def weighted_median_core (s : List (ℚ × ℚ)) : ℚ :=
  let angles := s.map Prod.fst
  let weights := s.map Prod.snd
  let cumulative := cumsum weights
  let cutoff := cumulative.getD (cumulative.length - 1) 0 * (1 / 2)
  let median_idx := cumulative.findIdx (fun c => cutoff ≤ c)
  angles.getD (min median_idx (angles.length - 1)) 0

/-- `SkewDetector._robust_weighted_angle`: `0.0` for an empty list, otherwise
the weighted-median pick over the angle-sorted pairs. -/
def robust_weighted_angle (weighted_angles : List (ℚ × ℚ)) : ℚ :=
  if weighted_angles.isEmpty then 0
  else weighted_median_core (List.insertionSort pairLE weighted_angles)

/-- Total confidence weight of a weighted-angle list. -/
def totalWeight (wa : List (ℚ × ℚ)) : ℚ := (wa.map Prod.snd).sum

/-- Cumulative weight, in ascending angle order, accumulated once all entries
with angle at most `x` have been taken. -/
def cumWeightLE (wa : List (ℚ × ℚ)) (x : ℚ) : ℚ :=
  ((wa.filter (fun p => p.1 ≤ x)).map Prod.snd).sum

lemma cumsum_length (w : List ℚ) : (cumsum w).length = w.length := by
  induction w with
  | nil => rfl
  | cons x xs ih => simp [cumsum, ih]

lemma cumsum_getD (w : List ℚ) (i : ℕ) (hi : i < w.length) :
    (cumsum w).getD i 0 = (w.take (i + 1)).sum := by
  induction w generalizing i with
  | nil => exact absurd hi (by simp)
  | cons x xs ih =>
    cases i with
    | zero => simp [cumsum]
    | succ n =>
      have hn : n < xs.length := by simpa using hi
      have hmaplen : n < ((cumsum xs).map (x + ·)).length := by
        simpa [cumsum_length] using hn
      have hclen : n < (cumsum xs).length := by simpa [cumsum_length] using hn
      simp only [cumsum, List.getD_cons_succ]
      rw [List.getD_eq_getElem _ _ hmaplen, List.getElem_map,
        ← List.getD_eq_getElem _ 0 hclen, ih n hn, List.take_succ_cons,
        List.sum_cons]

lemma cumsum_last (w : List ℚ) (hw : w ≠ []) :
    (cumsum w).getD (w.length - 1) 0 = w.sum := by
  have hpos : 0 < w.length := List.length_pos.mpr hw
  rw [cumsum_getD w _ (by omega)]
  have h1 : w.length - 1 + 1 = w.length := by omega
  rw [h1, List.take_length]

lemma findIdx_pred {l : List ℚ} {p : ℚ → Bool} (h : l.findIdx p < l.length) :
    p (l.getD (l.findIdx p) 0) = true := by
  rw [List.getD_eq_getElem _ _ h]
  exact List.findIdx_getElem

lemma findIdx_min {l : List ℚ} {p : ℚ → Bool} {i : ℕ} (hi : i < l.length)
    (h : p (l.getD i 0) = true) : l.findIdx p ≤ i := by
  by_contra hlt
  push_neg at hlt
  have hfalse := List.not_of_lt_findIdx hlt
  rw [List.getD_eq_getElem _ _ hi] at h
  rw [h] at hfalse
  exact absurd hfalse (by simp)

/-- On a list sorted by angle, filtering the angles `≤ y` takes a prefix. -/
lemma sorted_filter_eq_takeWhile {s : List (ℚ × ℚ)} (hs : List.Pairwise pairLE s)
    (y : ℚ) :
    s.filter (fun p => p.1 ≤ y) = s.takeWhile (fun p => p.1 ≤ y) := by
  induction s with
  | nil => rfl
  | cons a t ih =>
    obtain ⟨ha, ht⟩ := List.pairwise_cons.mp hs
    by_cases h : a.1 ≤ y
    · simp [List.filter_cons, List.takeWhile_cons, h, ih ht]
    · have hnil : t.filter (fun p => p.1 ≤ y) = [] := by
        rw [List.filter_eq_nil_iff]
        intro q hq
        have hr : pairLE a q := ha q hq
        simp only [decide_eq_true_eq]
        intro hqy
        exact h (le_trans hr hqy)
      simp [List.filter_cons, List.takeWhile_cons, h, hnil]

/-- Prefix sums of weights are below the cumulative weight at any angle `x`
dominating the whole prefix (weights nonnegative). -/
lemma take_weight_le_cumWeight (s : List (ℚ × ℚ)) (x : ℚ)
    (hpos : ∀ p ∈ s, 0 ≤ p.2) (m : ℕ) (hall : ∀ a ∈ s.take m, a.1 ≤ x) :
    ((s.map Prod.snd).take m).sum ≤ cumWeightLE s x := by
  rw [cumWeightLE]
  have h1 : s.filter (fun p => p.1 ≤ x) =
      s.take m ++ (s.drop m).filter (fun p => p.1 ≤ x) := by
    conv_lhs => rw [← List.take_append_drop m s]
    rw [List.filter_append]
    congr 1
    exact List.filter_eq_self.mpr (fun a ha => by simpa using hall a ha)
  rw [h1, List.map_append, List.sum_append, ← List.map_take]
  have h2 : 0 ≤ (((s.drop m).filter (fun p => p.1 ≤ x)).map Prod.snd).sum := by
    apply List.sum_nonneg
    intro q hq
    obtain ⟨p, hp, rfl⟩ := List.mem_map.mp hq
    exact hpos p (List.mem_of_mem_drop (List.mem_of_mem_filter hp))
  linarith

/-- In a sorted list, every element of `s.take (i+1)` has angle at most the
angle at position `i`. -/
lemma sorted_take_le (s : List (ℚ × ℚ)) (hsorted : List.Pairwise pairLE s)
    (i : ℕ) (hi : i < s.length) : ∀ a ∈ s.take (i + 1), a.1 ≤ s[i].1 := by
  intro a ha
  obtain ⟨j, hj, hja⟩ := List.mem_iff_getElem.mp ha
  have hj2 : j < i + 1 := by
    have := hj
    simp only [List.length_take] at this
    omega
  have hj3 : j < s.length := by
    have := hj
    simp only [List.length_take] at this
    omega
  rw [← hja, List.getElem_take]
  rcases Nat.lt_or_ge j i with h | h
  · exact (List.pairwise_iff_getElem.mp hsorted) j i hj3 hi h
  · have hji : j = i := by omega
    subst hji
    exact le_refl _

/-- The weighted-median pick on a sorted list of positively weighted angles:
it is one of the listed angles, its cumulative weight reaches half the total,
and it is the least listed angle doing so. -/
lemma weighted_median_core_spec (s : List (ℚ × ℚ))
    (hsorted : List.Pairwise pairLE s) (hne : s ≠ [])
    (hpos : ∀ p ∈ s, 0 < p.2) :
    weighted_median_core s ∈ s.map Prod.fst ∧
    totalWeight s / 2 ≤ cumWeightLE s (weighted_median_core s) ∧
    ∀ y ∈ s.map Prod.fst,
      totalWeight s / 2 ≤ cumWeightLE s y → weighted_median_core s ≤ y := by
  have hpos' : ∀ p ∈ s, 0 ≤ p.2 := fun p hp => le_of_lt (hpos p hp)
  have hlen0 : 0 < s.length := List.length_pos.mpr hne
  simp only [weighted_median_core]
  set w := s.map Prod.snd with hw
  set cum := cumsum w with hcum
  set total := cum.getD (cum.length - 1) 0 with htotal_def
  set cutoff := total * (1 / 2) with hcutoff_def
  set idx := cum.findIdx (fun c => decide (cutoff ≤ c)) with hidx_def
  have hwlen : w.length = s.length := by rw [hw, List.length_map]
  have hclen : cum.length = s.length := by rw [hcum, cumsum_length, hwlen]
  have hwne : w ≠ [] := by rw [hw]; simp [hne]
  have htot : total = totalWeight s := by
    rw [htotal_def, hclen, ← hwlen, hcum, cumsum_last w hwne, totalWeight, hw]
  have htotpos : 0 < totalWeight s := by
    rw [totalWeight]
    apply List.sum_pos
    · intro q hq
      obtain ⟨p, hp, rfl⟩ := List.mem_map.mp hq
      exact hpos p hp
    · simp [hne]
  have hcut_eq : cutoff = totalWeight s / 2 := by rw [hcutoff_def, htot]; ring
  have hcutle : cutoff ≤ total := by rw [hcut_eq, htot]; linarith
  have hlastlt : cum.length - 1 < cum.length := by rw [hclen]; omega
  have hexists : ∃ c ∈ cum, decide (cutoff ≤ c) = true := by
    refine ⟨total, ?_, by simp [hcutle]⟩
    rw [htotal_def, List.getD_eq_getElem _ _ hlastlt]
    exact List.getElem_mem hlastlt
  have hidxlt : idx < cum.length := by
    rw [hidx_def]
    exact List.findIdx_lt_length_of_exists hexists
  have hidxs : idx < s.length := by rw [← hclen]; exact hidxlt
  have hmaplen : (s.map Prod.fst).length = s.length := List.length_map _ _
  have hmin : min idx ((s.map Prod.fst).length - 1) = idx := by
    rw [hmaplen]; omega
  have hx : (s.map Prod.fst).getD (min idx ((s.map Prod.fst).length - 1)) 0 =
      s[idx].1 := by
    rw [hmin, List.getD_eq_getElem _ _ (by rw [hmaplen]; exact hidxs),
      List.getElem_map]
  rw [hx]
  -- the cumulative weight at the median index reaches the cutoff
  have hPidx : cutoff ≤ cum.getD idx 0 := by
    have h := findIdx_pred (p := fun c => decide (cutoff ≤ c)) (l := cum)
      (by rw [← hidx_def]; exact hidxlt)
    rw [← hidx_def] at h
    exact of_decide_eq_true h
  have hcum_idx : cum.getD idx 0 = (w.take (idx + 1)).sum := by
    rw [hcum]; exact cumsum_getD w idx (by rw [hwlen]; exact hidxs)
  have hreach : totalWeight s / 2 ≤ cumWeightLE s s[idx].1 := by
    calc totalWeight s / 2 = cutoff := hcut_eq.symm
      _ ≤ cum.getD idx 0 := hPidx
      _ = (w.take (idx + 1)).sum := hcum_idx
      _ ≤ cumWeightLE s s[idx].1 := by
          rw [hw]
          exact take_weight_le_cumWeight s _ hpos' (idx + 1)
            (sorted_take_le s hsorted idx hidxs)
  refine ⟨?_, hreach, ?_⟩
  · exact List.mem_map.mpr ⟨s[idx], List.getElem_mem hidxs, rfl⟩
  -- minimality among listed angles whose cumulative weight reaches the cutoff
  intro y hy hcw
  have hfilne : s.filter (fun p => p.1 ≤ y) ≠ [] := by
    intro hnil
    rw [cumWeightLE, hnil] at hcw
    simp only [List.map_nil, List.sum_nil] at hcw
    linarith
  have hft : s.filter (fun p => p.1 ≤ y) = s.takeWhile (fun p => p.1 ≤ y) :=
    sorted_filter_eq_takeWhile hsorted y
  set m := (s.takeWhile (fun p => decide (p.1 ≤ y))).length with hm_def
  have hm1 : 1 ≤ m := by
    rcases Nat.eq_zero_or_pos m with h0 | h1
    · exact absurd (hft.trans (List.length_eq_zero.mp (by rw [← hm_def]; exact h0)))
        hfilne
    · exact h1
  have hmle : m ≤ s.length := by
    rw [hm_def]
    exact (List.takeWhile_prefix _).length_le
  have htake : s.takeWhile (fun p => decide (p.1 ≤ y)) = s.take m := by
    have hp := List.takeWhile_prefix (l := s) (fun p => decide (p.1 ≤ y))
    rw [List.prefix_iff_eq_take] at hp
    rw [hm_def]
    exact hp
  have hm1lt : m - 1 < s.length := by omega
  have hcwval : cumWeightLE s y = cum.getD (m - 1) 0 := by
    rw [cumWeightLE, hft, htake, hcum, cumsum_getD w (m - 1) (by rw [hwlen]; omega)]
    have h1 : m - 1 + 1 = m := by omega
    rw [h1, hw, List.map_take]
  have hPm : decide (cutoff ≤ cum.getD (m - 1) 0) = true := by
    apply decide_eq_true
    calc cutoff = totalWeight s / 2 := hcut_eq
      _ ≤ cumWeightLE s y := hcw
      _ = cum.getD (m - 1) 0 := hcwval
  have hidxle : idx ≤ m - 1 := by
    rw [hidx_def]
    exact findIdx_min (by rw [hclen]; omega) hPm
  have hle1 : s[idx].1 ≤ s[m - 1].1 := by
    rcases Nat.lt_or_ge idx (m - 1) with h | h
    · exact (List.pairwise_iff_getElem.mp hsorted) idx (m - 1) hidxs hm1lt h
    · have h1 : s[idx] = s[m - 1] := by
        congr 1
        omega
      rw [h1]
  have hmem2 : s[m - 1] ∈ s.take m := by
    have hlt : m - 1 < (s.take m).length := by
      simp only [List.length_take]
      omega
    have hg := List.getElem_take (L := s) (h := hlt)
    rw [← hg]
    exact List.getElem_mem hlt
  have hPy : s[m - 1].1 ≤ y := by
    have hmem3 : s[m - 1] ∈ s.takeWhile (fun p => decide (p.1 ≤ y)) := by
      rw [htake]; exact hmem2
    have hPm2 := List.mem_takeWhile_imp (p := fun p : ℚ × ℚ => decide (p.1 ≤ y)) hmem3
    exact of_decide_eq_true hPm2
  exact le_trans hle1 hPy

/-- C9: for every non-empty list of (angle, weight) pairs with positive
weights, `_robust_weighted_angle` returns one of the input angles, namely the
smallest angle at which the cumulative weight, taken in ascending angle
order, first reaches 50 percent of the total weight; for the empty list it
returns `0.0`. -/
theorem robust_weighted_angle_spec (wa : List (ℚ × ℚ)) (hne : wa ≠ [])
    (hpos : ∀ p ∈ wa, 0 < p.2) :
    robust_weighted_angle [] = 0 ∧
    robust_weighted_angle wa ∈ wa.map Prod.fst ∧
    totalWeight wa / 2 ≤ cumWeightLE wa (robust_weighted_angle wa) ∧
    ∀ y ∈ wa.map Prod.fst,
      totalWeight wa / 2 ≤ cumWeightLE wa y → robust_weighted_angle wa ≤ y := by
  have hperm : (List.insertionSort pairLE wa).Perm wa :=
    List.perm_insertionSort pairLE wa
  have hsne : List.insertionSort pairLE wa ≠ [] := by
    intro h
    rw [h] at hperm
    exact hne (hperm.symm.eq_nil)
  have hval : robust_weighted_angle wa =
      weighted_median_core (List.insertionSort pairLE wa) := by
    rw [robust_weighted_angle, if_neg (by simp [hne])]
  have hspec := weighted_median_core_spec _ (List.sorted_insertionSort pairLE wa)
    hsne (fun p hp => hpos p (hperm.mem_iff.mp hp))
  have htw : totalWeight (List.insertionSort pairLE wa) = totalWeight wa :=
    (hperm.map Prod.snd).sum_eq
  have hcw : ∀ x, cumWeightLE (List.insertionSort pairLE wa) x = cumWeightLE wa x :=
    fun x => ((hperm.filter _).map Prod.snd).sum_eq
  have hmemiff : ∀ x, x ∈ (List.insertionSort pairLE wa).map Prod.fst ↔
      x ∈ wa.map Prod.fst := fun x => (hperm.map Prod.fst).mem_iff
  obtain ⟨hA, hB, hC⟩ := hspec
  refine ⟨by rw [robust_weighted_angle]; rfl, ?_, ?_, ?_⟩
  · rw [hval]
    exact (hmemiff _).mp hA
  · rw [hval, ← htw, ← hcw]
    exact hB
  · intro y hy hcwy
    rw [hval]
    exact hC y ((hmemiff y).mpr hy) (by rw [htw, hcw]; exact hcwy)

/-- Witness for C9 on a concrete list: angles 5, 2, 9 with weights 1, 1, 3;
sorted cumulative weights are 1, 2, 5 with cutoff 2.5, so the pick is 9. -/
theorem robust_weighted_angle_spec_witness :
    ([((5:ℚ), (1:ℚ)), (2, 1), (9, 3)] ≠ []) ∧
    (∀ p ∈ [((5:ℚ), (1:ℚ)), (2, 1), (9, 3)], 0 < p.2) ∧
    (robust_weighted_angle [] = 0 ∧
    robust_weighted_angle [((5:ℚ), (1:ℚ)), (2, 1), (9, 3)] ∈
      [((5:ℚ), (1:ℚ)), (2, 1), (9, 3)].map Prod.fst ∧
    totalWeight [((5:ℚ), (1:ℚ)), (2, 1), (9, 3)] / 2 ≤
      cumWeightLE [((5:ℚ), (1:ℚ)), (2, 1), (9, 3)]
        (robust_weighted_angle [((5:ℚ), (1:ℚ)), (2, 1), (9, 3)]) ∧
    ∀ y ∈ [((5:ℚ), (1:ℚ)), (2, 1), (9, 3)].map Prod.fst,
      totalWeight [((5:ℚ), (1:ℚ)), (2, 1), (9, 3)] / 2 ≤
        cumWeightLE [((5:ℚ), (1:ℚ)), (2, 1), (9, 3)] y →
      robust_weighted_angle [((5:ℚ), (1:ℚ)), (2, 1), (9, 3)] ≤ y) :=
  ⟨by simp, by decide,
    robust_weighted_angle_spec [((5:ℚ), (1:ℚ)), (2, 1), (9, 3)] (by simp) (by decide)⟩

/-! ### `SkewDetector._estimate_angle` cascade (skew_detector.py, lines 115-152)

The image-processing library calls are modelled by their observable outputs:

* `segment_angles` is the list built by `_collect_hough_segment_angles`;
* `standard_angles` is the list built by `_collect_standard_hough_angles`;
* `foreground = none` models `cv2.findNonZero(morph) is None` (a page with no
  foreground pixel); otherwise it carries the two fallback library outputs for
  the foreground coordinate set:
  - `pca_raw` is the raw `math.degrees(math.atan2(...))` of the dominant
    eigenvector in `_angle_from_pca`, with `none` modelling the
    `eigenvectors is None or eigenvectors.size == 0` early-return path;
  - `min_area_raw` is the `cv2.minAreaRect` box angle in
    `_angle_from_min_area`, with `none` modelling a non-finite float (the
    `math.isfinite` guard; negating or adding 90 to a non-finite float keeps
    it non-finite, so applying the guard to the raw input is equivalent to
    the source's post-transform check). -/

/-- Library outputs available once `cv2.findNonZero` reports foreground. -/
structure ForegroundData where
  pca_raw : Option ℚ
  min_area_raw : Option ℚ
deriving DecidableEq

/-- All library outputs feeding one `_estimate_angle` run. -/
structure CascadeInputs where
  segment_angles : List (ℚ × ℚ)
  standard_angles : List (ℚ × ℚ)
  foreground : Option ForegroundData
deriving DecidableEq

/-- `SkewDetector._angle_from_pca`: 0.0 when no eigenvector is produced,
otherwise the normalised eigenvector angle. -/
def angle_from_pca (pca_raw : Option ℚ) : ℚ :=
  match pca_raw with
  | none => 0
  | some raw => normalise_angle raw

/-- The sign/axis convention fix in `_angle_from_min_area`: angles below -45
are re-expressed relative to the other axis, then the sign is flipped. -/
def min_area_transform (box_angle : ℚ) : ℚ :=
  if box_angle < -45 then -(90 + box_angle) else -box_angle

/-- `SkewDetector._angle_from_min_area`: transform the `cv2.minAreaRect`
angle, return 0.0 when it is non-finite (`none`) or exceeds `max_skew`. -/
def angle_from_min_area (max_skew : ℚ) (min_area_raw : Option ℚ) : ℚ :=
  match min_area_raw with
  | none => 0
  | some box_angle =>
    let angle := min_area_transform box_angle
    if max_skew < |angle| then 0 else angle

/-- `SkewDetector._estimate_angle`: the four-strategy cascade.  The source
first tests `if weighted_angles:` (non-emptiness) and then compares the
weighted median against `max_skew`; each combined condition below is that
pair of nested tests. -/
def estimate_angle (max_skew : ℚ) (inp : CascadeInputs) : ℚ :=
  if inp.segment_angles ≠ [] ∧
      |robust_weighted_angle inp.segment_angles| ≤ max_skew then
    robust_weighted_angle inp.segment_angles
  else if inp.standard_angles ≠ [] ∧
      |robust_weighted_angle inp.standard_angles| ≤ max_skew then
    robust_weighted_angle inp.standard_angles
  else
    match inp.foreground with
    | none => 0
    | some fg =>
      let pca_angle := angle_from_pca fg.pca_raw
      if |pca_angle| ≤ max_skew then pca_angle
      else angle_from_min_area max_skew fg.min_area_raw

/-- C3: with a nonnegative `max_skew` bound (the repository always uses the
default 15.0), the cascade always terminates with an angle bounded by
`max_skew`; a page with no foreground pixel — on which the edge map is empty,
so both Hough collections are empty and `cv2.findNonZero` returns `None` —
yields exactly 0.0 without raising; the minimum-area-rectangle fallback
returns exactly 0.0 on a non-finite box angle and whenever its transformed
result exceeds `max_skew`; and a Hough strategy whose weighted median exceeds
`max_skew` is skipped — the cascade behaves as if that strategy had produced
nothing. -/
theorem estimate_angle_spec (max_skew : ℚ) (inp : CascadeInputs)
    (hms : 0 ≤ max_skew) :
    |estimate_angle max_skew inp| ≤ max_skew ∧
    (inp.segment_angles = [] → inp.standard_angles = [] →
      inp.foreground = none → estimate_angle max_skew inp = 0) ∧
    angle_from_min_area max_skew none = 0 ∧
    (∀ box_angle : ℚ, max_skew < |min_area_transform box_angle| →
      angle_from_min_area max_skew (some box_angle) = 0) ∧
    (max_skew < |robust_weighted_angle inp.segment_angles| →
      estimate_angle max_skew inp =
        estimate_angle max_skew ⟨[], inp.standard_angles, inp.foreground⟩) ∧
    (max_skew < |robust_weighted_angle inp.standard_angles| →
      estimate_angle max_skew inp =
        estimate_angle max_skew ⟨inp.segment_angles, [], inp.foreground⟩) := by
  obtain ⟨seg, std, fg⟩ := inp
  have hminarea : ∀ raw : Option ℚ, |angle_from_min_area max_skew raw| ≤ max_skew := by
    intro raw
    match raw with
    | none => simpa [angle_from_min_area] using hms
    | some box_angle =>
      simp only [angle_from_min_area]
      by_cases h : max_skew < |min_area_transform box_angle|
      · simpa [h] using hms
      · simpa [h] using not_lt.mp h
  have hfall : ∀ f : Option ForegroundData,
      |(match f with
        | none => (0:ℚ)
        | some fg =>
          let pca_angle := angle_from_pca fg.pca_raw
          if |pca_angle| ≤ max_skew then pca_angle
          else angle_from_min_area max_skew fg.min_area_raw)| ≤ max_skew := by
    intro f
    match f with
    | none => simpa using hms
    | some fg =>
      by_cases h : |angle_from_pca fg.pca_raw| ≤ max_skew
      · simpa [h] using h
      · simpa [h] using hminarea fg.min_area_raw
  refine ⟨?_, ?_, by simpa [angle_from_min_area] using hms, ?_, ?_, ?_⟩
  · simp only [estimate_angle]
    by_cases h1 : seg ≠ [] ∧ |robust_weighted_angle seg| ≤ max_skew
    · simpa [h1] using h1.2
    · by_cases h2 : std ≠ [] ∧ |robust_weighted_angle std| ≤ max_skew
      · simpa [h1, h2] using h2.2
      · simpa [h1, h2] using hfall fg
  · intro hseg hstd hf
    simp only at hseg hstd hf
    subst hseg
    subst hstd
    subst hf
    simp [estimate_angle]
  · intro box_angle hgt
    simp [angle_from_min_area, not_le.mpr hgt, hgt]
  · intro hseg
    have h1 : ¬(seg ≠ [] ∧ |robust_weighted_angle seg| ≤ max_skew) := by
      rintro ⟨-, hle⟩
      exact absurd hseg (not_lt.mpr hle)
    simp [estimate_angle, h1]
  · intro hstd
    have h2 : ¬(std ≠ [] ∧ |robust_weighted_angle std| ≤ max_skew) := by
      rintro ⟨-, hle⟩
      exact absurd hstd (not_lt.mpr hle)
    by_cases h1 : seg ≠ [] ∧ |robust_weighted_angle seg| ≤ max_skew
    · simp [estimate_angle, h1]
    · simp [estimate_angle, h1, h2]

/-- Witness for C3 at the default bound 15.0 on an all-blank page (no Hough
lines, no foreground pixel). -/
theorem estimate_angle_spec_witness :
    (0:ℚ) ≤ 15 ∧
    (|estimate_angle 15 ⟨[], [], none⟩| ≤ 15 ∧
    ((⟨[], [], none⟩ : CascadeInputs).segment_angles = [] →
      (⟨[], [], none⟩ : CascadeInputs).standard_angles = [] →
      (⟨[], [], none⟩ : CascadeInputs).foreground = none →
      estimate_angle 15 ⟨[], [], none⟩ = 0) ∧
    angle_from_min_area 15 none = 0 ∧
    (∀ box_angle : ℚ, (15:ℚ) < |min_area_transform box_angle| →
      angle_from_min_area 15 (some box_angle) = 0) ∧
    ((15:ℚ) < |robust_weighted_angle ([] : List (ℚ × ℚ))| →
      estimate_angle 15 ⟨[], [], none⟩ = estimate_angle 15 ⟨[], [], none⟩) ∧
    ((15:ℚ) < |robust_weighted_angle ([] : List (ℚ × ℚ))| →
      estimate_angle 15 ⟨[], [], none⟩ = estimate_angle 15 ⟨[], [], none⟩)) :=
  ⟨by norm_num, estimate_angle_spec 15 ⟨[], [], none⟩ (by norm_num)⟩

/-! ### `DocumentPreprocessor` (document_preprocessor.py and
document_preprocessor/base.py)

The repository contains two sibling orchestrators.  The module
`document_preprocessor.py` computes an adaptive per-page rasterization DPI
(`_determine_page_dpi`, lines 206-216) used by its
`convert_pdf_to_images_to_pdf` loop; the package variant
`document_preprocessor/base.py` rasterizes at the fixed `raster_dpi` and
funnels the preserve-original decision through `_should_copy_page`
(lines 172-188).  Both are embedded; a page is modelled by its point
dimensions and the observable outcome of `page.get_text(...)`
(`none` = the call raised `RuntimeError`). -/

/-- Python `str.strip()`: drop whitespace from both ends. -/
def pyStrip (cs : List Char) : List Char :=
  ((cs.dropWhile Char.isWhitespace).reverse.dropWhile Char.isWhitespace).reverse

/-- A PDF page as observed by the preprocessors.  `extracted_text` is the
outcome of `page.get_text("text", flags=fitz.TEXTFLAGS_TEXT)` as a character
list, with `none` modelling a raised `RuntimeError`. -/
structure Page where
  width : ℚ
  height : ℚ
  extracted_text : Option (List Char)
deriving DecidableEq

/-- `PreprocessingSettings` of document_preprocessor.py (lines 13-37). -/
structure PreprocessingSettings where
  min_dpi : ℤ
  max_dpi : ℤ
  target_long_edge_px : ℤ
  jpg_quality : ℤ
  preserve_image_only_pages : Bool
  optimize_garbage : ℤ
  optimize_clean : Bool
  optimize_deflate : Bool
deriving DecidableEq

/-- `PreprocessingSettings` of document_preprocessor/base.py (lines 12-21):
a fixed rasterization DPI budget instead of the adaptive bounds. -/
structure BasePreprocessingSettings where
  raster_dpi : ℤ
  jpg_quality : ℤ
  preserve_image_only_pages : Bool
  optimize_garbage : ℤ
  optimize_clean : Bool
  optimize_deflate : Bool
deriving DecidableEq

/-- Python 3 `round()` on an exact rational: round half to even. -/
def pythonRound (q : ℚ) : ℤ :=
  let f := ⌊q⌋
  let frac := q - f
  if frac < 1 / 2 then f
  else if 1 / 2 < frac then f + 1
  else if f % 2 = 0 then f else f + 1

/-- `DocumentPreprocessor._determine_page_dpi` (document_preprocessor.py,
lines 206-216): `round(target_long_edge_px / long_edge_inches)` clamped by
`max(min_dpi, min(max_dpi, target_dpi))`, with `min_dpi` for a degenerate
page. -/
def determine_page_dpi (s : PreprocessingSettings) (page : Page) : ℤ :=
  let long_edge_inches := max page.width page.height / 72
  if long_edge_inches ≤ 0 then s.min_dpi
  else
    let target_dpi := pythonRound ((s.target_long_edge_px : ℚ) / long_edge_inches)
    max s.min_dpi (min s.max_dpi target_dpi)

/-- Truthiness of `page.get_text("text", ...).strip()` as used in the
`convert_pdf_to_images_to_pdf` loop of document_preprocessor.py (lines
111-119): a `RuntimeError` counts as having text. -/
def page_has_text (page : Page) : Bool :=
  match page.extracted_text with
  | none => true
  | some t => !(pyStrip t).isEmpty

/-- Per-page outcome of a `convert_pdf_to_images_to_pdf` loop iteration:
either the original page inserted verbatim (`insert_pdf`) or a rasterization
at the given DPI. -/
inductive ConvertedPage where
  | copied (page : Page)
  | rasterized (dpi : ℤ)
deriving DecidableEq

/-- One iteration of the `convert_pdf_to_images_to_pdf` loop of
document_preprocessor.py (lines 107-147): compute the adaptive DPI, copy the
page verbatim when preservation applies, otherwise rasterize at that DPI. -/
def convert_page_adaptive (s : PreprocessingSettings) (page : Page) : ConvertedPage :=
  let current_dpi := determine_page_dpi s page
  if s.preserve_image_only_pages && !page_has_text page then .copied page
  else .rasterized current_dpi

/-- `DocumentPreprocessor._should_copy_page` (document_preprocessor/base.py,
lines 172-188). -/
def should_copy_page (s : BasePreprocessingSettings) (page : Page) : Bool :=
  if !s.preserve_image_only_pages then false
  else
    match page.extracted_text with
    | none => false
    | some t => (pyStrip t).isEmpty

/-- One iteration of the `convert_pdf_to_images_to_pdf` loop of
document_preprocessor/base.py (lines 99-113): verbatim copy when
`_should_copy_page` holds, otherwise rasterization at the fixed DPI budget. -/
def convert_page_base (s : BasePreprocessingSettings) (page : Page) : ConvertedPage :=
  if should_copy_page s page then .copied page
  else .rasterized s.raster_dpi

/-- C7: for every page the adaptive orchestrator rasterizes (settings valid
per `__post_init__`, page with a positive long edge), the chosen DPI is
`round(target_long_edge_px / long_edge_inches)` — with `long_edge_inches` the
longest edge in points divided by 72 — clamped into `[min_dpi, max_dpi]`:
the result always lies in that inclusive range, equals the rounded target
when the target is in range, and equals the violated bound otherwise; the
rasterization step uses exactly this DPI. -/
theorem determine_page_dpi_spec (s : PreprocessingSettings) (page : Page)
    (hvalid : s.min_dpi ≤ s.max_dpi)
    (hpage : 0 < max page.width page.height) :
    s.min_dpi ≤ determine_page_dpi s page ∧
    determine_page_dpi s page ≤ s.max_dpi ∧
    (s.min_dpi ≤ pythonRound ((s.target_long_edge_px : ℚ) /
        (max page.width page.height / 72)) →
      pythonRound ((s.target_long_edge_px : ℚ) /
        (max page.width page.height / 72)) ≤ s.max_dpi →
      determine_page_dpi s page = pythonRound ((s.target_long_edge_px : ℚ) /
        (max page.width page.height / 72))) ∧
    (pythonRound ((s.target_long_edge_px : ℚ) /
        (max page.width page.height / 72)) < s.min_dpi →
      determine_page_dpi s page = s.min_dpi) ∧
    (s.max_dpi < pythonRound ((s.target_long_edge_px : ℚ) /
        (max page.width page.height / 72)) →
      determine_page_dpi s page = s.max_dpi) ∧
    (∀ d, convert_page_adaptive s page = .rasterized d →
      d = determine_page_dpi s page) := by
  have hlei : ¬(max page.width page.height / 72 ≤ 0) := by
    push_neg
    exact div_pos hpage (by norm_num)
  have hval : determine_page_dpi s page =
      max s.min_dpi (min s.max_dpi (pythonRound ((s.target_long_edge_px : ℚ) /
        (max page.width page.height / 72)))) := by
    simp [determine_page_dpi, hlei]
  refine ⟨?_, ?_, ?_, ?_, ?_, ?_⟩
  · rw [hval]; omega
  · rw [hval]; omega
  · intro h1 h2; rw [hval]; omega
  · intro h1; rw [hval]; omega
  · intro h1; rw [hval]; omega
  · intro d hd
    simp only [convert_page_adaptive] at hd
    by_cases hc : s.preserve_image_only_pages && !page_has_text page
    · simp [hc] at hd
    · simp only [hc, if_neg, Bool.false_eq_true, not_false_eq_true] at hd
      cases hd
      rfl

/-- Witness for C7: the default settings (240/360/3400) on a Letter-size page
(612 x 792 points, long edge 11 inches) containing text. -/
theorem determine_page_dpi_spec_witness :
    (⟨240, 360, 3400, 82, true, 4, true, true⟩ : PreprocessingSettings).min_dpi ≤
      (⟨240, 360, 3400, 82, true, 4, true, true⟩ : PreprocessingSettings).max_dpi ∧
    (0:ℚ) < max (612:ℚ) 792 ∧
    (⟨240, 360, 3400, 82, true, 4, true, true⟩ : PreprocessingSettings).min_dpi ≤
      determine_page_dpi ⟨240, 360, 3400, 82, true, 4, true, true⟩
        ⟨612, 792, some ['h']⟩ ∧
    determine_page_dpi ⟨240, 360, 3400, 82, true, 4, true, true⟩
        ⟨612, 792, some ['h']⟩ ≤
      (⟨240, 360, 3400, 82, true, 4, true, true⟩ : PreprocessingSettings).max_dpi := by
  have h := determine_page_dpi_spec ⟨240, 360, 3400, 82, true, 4, true, true⟩
    ⟨612, 792, some ['h']⟩ (by decide) (by norm_num)
  exact ⟨by decide, by norm_num, h.1, h.2.1⟩

/-- C8: in the base orchestrator, a page whose text extraction succeeds with
no extractable text is, when `preserve_image_only_pages` is enabled, copied
verbatim into the output (the original page itself), with no rasterization
performed for that page (and deskewing is a later, separate pass that copies
`image_bytes = none` pages verbatim as well). -/
theorem preserve_image_only_copy (s : BasePreprocessingSettings) (page : Page)
    (t : List Char) (hp : s.preserve_image_only_pages = true)
    (ht : page.extracted_text = some t) (hempty : pyStrip t = []) :
    should_copy_page s page = true ∧
    convert_page_base s page = .copied page := by
  have hcopy : should_copy_page s page = true := by
    simp [should_copy_page, hp, ht, hempty]
  exact ⟨hcopy, by simp [convert_page_base, hcopy]⟩

/-- Witness for C8: default base settings and a page with empty extracted
text. -/
theorem preserve_image_only_copy_witness :
    (⟨450, 82, true, 4, true, true⟩ : BasePreprocessingSettings).preserve_image_only_pages
      = true ∧
    (⟨612, 792, some []⟩ : Page).extracted_text = some [] ∧
    pyStrip [] = [] ∧
    should_copy_page ⟨450, 82, true, 4, true, true⟩ ⟨612, 792, some []⟩ = true ∧
    convert_page_base ⟨450, 82, true, 4, true, true⟩ ⟨612, 792, some []⟩ =
      .copied ⟨612, 792, some []⟩ := by
  have h := preserve_image_only_copy ⟨450, 82, true, 4, true, true⟩
    ⟨612, 792, some []⟩ [] rfl rfl rfl
  exact ⟨rfl, rfl, rfl, h.1, h.2⟩

end PagePipeline
